import Mathlib

/-!
Verification of the `quiksearch` trie-based abbreviation-search library.

The embedding translates `src/lib.rs`. Rust's `HashMap<Letter, Node>` and
`HashSet<Rc<T>>` are modelled as deterministic association structures
(`ChildList`, `List` with set-insert); `Rc<T>` equality/hashing delegates to
`T`, so a shared term reference is modelled as a plain value of `T`.
Character normalization in the source uses Rust's Unicode
`str::to_lowercase` / `char::is_alphanumeric`; the model restricts to their
ASCII behaviour (Lean's `Char.toLower` / `Char.isAlphanum`), under which a
string's byte length (`str::len`) equals its character count
(`String.length`).  The partiality of `find_terms` on the empty query
string — `query.len() - 1` underflows `usize` and panics — is modelled by
an `Option` result, with `none` standing for the panic.
-/

set_option linter.unusedSectionVars false

namespace QuikSearch

/-- Priority for the fuzzy algorithm (enum `FuzzPriority` in the source). -/
inductive FuzzPriority : Type where
  | WordBoundary : FuzzPriority
  | TypoCorrection : FuzzPriority
  deriving DecidableEq

/-- Search algorithm choice (enum `SearchKind` in the source).  `Strict` is an
exact match, `Prefix depth` a bounded prefix match, `Fuzzy fuzz pri` a fuzzy
prefix match. -/
inductive SearchKind : Type where
  | Strict : SearchKind
  | Prefix (depth : Nat) : SearchKind
  | Fuzzy (fuzz : Nat) (pri : FuzzPriority) : SearchKind
  deriving DecidableEq

mutual

/-- `WordListNode<Term>`: a trie node holding the set of terms terminating
here and the character-indexed children (`HashMap<Letter, Self>`, modelled as
an association list). -/
inductive WordListNode (T : Type) : Type where
  | mk (terms : List T) (children : ChildList T) : WordListNode T
  deriving DecidableEq

/-- The child map of a node: an association list from characters to nodes
(deterministic stand-in for `HashMap<Letter, WordListNode>`). -/
inductive ChildList (T : Type) : Type where
  | nil : ChildList T
  | cons (c : Char) (n : WordListNode T) (rest : ChildList T) : ChildList T
  deriving DecidableEq

end

variable {T : Type} [DecidableEq T]

/-- The `terms` field of a node. -/
def WordListNode.terms : WordListNode T → List T
  | .mk ts _ => ts

/-- The `children` field of a node. -/
def WordListNode.children : WordListNode T → ChildList T
  | .mk _ cs => cs

/-- `WordListNode::new()`: an empty node. -/
def WordListNode.new : WordListNode T := .mk [] .nil

/-- `HashMap::get`: look up the child for a character (first matching key). -/
def ChildList.find? : ChildList T → Char → Option (WordListNode T)
  | .nil, _ => none
  | .cons c' n rest, c => if c' = c then some n else rest.find? c

/-- Update the child for a character in place, appending a new entry if the
key is absent (the write half of `HashMap::entry(c).or_insert(..)`). -/
def ChildList.setChild : ChildList T → Char → WordListNode T → ChildList T
  | .nil, c, m => .cons c m .nil
  | .cons c' n rest, c, m =>
    if c' = c then .cons c' m rest else .cons c' n (rest.setChild c m)

/-- `HashSet::insert`: add an element to a duplicate-free list if absent. -/
def insertSet (t : T) (l : List T) : List T :=
  if t ∈ l then l else t :: l

/-- `itertools::unique()`: deduplicate a list keeping first occurrences;
`seen` accumulates the elements already emitted. -/
def uniqueAux : List T → List T → List T
  | [], _ => []
  | x :: xs, seen => if x ∈ seen then uniqueAux xs seen else x :: uniqueAux xs (x :: seen)

/-- `itertools::unique()` over a whole list. -/
def uniqueList (l : List T) : List T := uniqueAux l []

/-- Normalization of a character sequence exactly as both `learn_word` and
`find_terms` perform it: lowercase every character, then keep only the
alphanumeric ones. -/
def normChars (l : List Char) : List Char :=
  (l.map Char.toLower).filter Char.isAlphanum

/-- Rust `str::split(|chr| !chr.is_alphanumeric())`: split at **every**
non-alphanumeric character, keeping empty segments (between two adjacent
delimiters and at delimiter-adjacent ends). -/
def splitNonAlnum : List Char → List (List Char)
  | [] => [[]]
  | c :: cs =>
    match splitNonAlnum cs, c.isAlphanum with
    | r :: rs, true => (c :: r) :: rs
    | r :: rs, false => [] :: r :: rs
    | [], _ => [[]]

/-- Walk/create the path `p` from `n` (creating missing child nodes with
`WordListNode::new`) and insert `t` into the terminal node's `terms` set.
This fuses the source's `learn_word` walk with the `terms.insert` its
callers perform on the returned terminal node; `p` is the already-normalized
character path. -/
def insertTermAt : WordListNode T → List Char → T → WordListNode T
  | .mk ts cs, [], t => .mk (insertSet t ts) cs
  | .mk ts cs, c :: p, t =>
    let child := match cs.find? c with
      | some m => m
      | none => WordListNode.new
    .mk ts (cs.setChild c (insertTermAt child p t))

/-- `learn_word` followed by the caller's `terms.insert(term)`: the path is
the word lowercased with non-alphanumeric characters dropped. -/
def learn_word (n : WordListNode T) (word : List Char) (t : T) : WordListNode T :=
  insertTermAt n (normChars word) t

/-- `learn_term`: index the term once per word of `term_repr` (split at every
non-alphanumeric character) and once for the whole representation with all
non-alphanumeric characters removed (`no_spaces`). -/
def learn_term (n : WordListNode T) (term_repr : String) (t : T) : WordListNode T :=
  let afterWords := (splitNonAlnum term_repr.data).foldl (fun acc w => learn_word acc w t) n
  let no_spaces := term_repr.data.filter Char.isAlphanum
  learn_word afterWords no_spaces t

/-- `WordDict::learn`: the term value is the term text itself. -/
def learn (n : WordListNode String) (term : String) : WordListNode String :=
  learn_term n term term

/-- Build a dictionary by learning each string of a list in order. -/
def buildDict (ts : List String) : WordListNode String :=
  ts.foldl learn WordListNode.new

mutual

/-- `collect_terms`: the terms of this node plus, recursively, those of all
children — descending `d` further levels when the depth limit is `some d`,
and without bound when it is `none`. -/
def collect_terms : WordListNode T → Option Nat → List T
  | .mk ts cs, some d => if 0 < d then ts ++ collectChildren cs (some (d - 1)) else ts
  | .mk ts cs, none => ts ++ collectChildren cs none

/-- The `for (_, child) in self.children` loop of `collect_terms`. -/
def collectChildren : ChildList T → Option Nat → List T
  | .nil, _ => []
  | .cons _ n rest, depth => collect_terms n depth ++ collectChildren rest depth

end

mutual

/-- `hope_for_success`: greedy depth-first search, bounded by `fuzz` hops,
for a descendant whose incoming edge is `chara`; first match wins. -/
def hope_for_success : WordListNode T → Char → Nat → Option (WordListNode T)
  | .mk _ cs, chara, fuzz => if 0 < fuzz then hopeChildren cs chara fuzz else none

/-- The `for (child_char, child) in self.children` loop of
`hope_for_success`: try the edge label first, then recurse into the child
with one hop fewer, then move to the next sibling. -/
def hopeChildren : ChildList T → Char → Nat → Option (WordListNode T)
  | .nil, _, _ => none
  | .cons c' n rest, chara, fuzz =>
    if c' = chara then some n
    else
      match hope_for_success n chara (fuzz - 1) with
      | some r => some r
      | none => hopeChildren rest chara fuzz

end

/-- The `FuzzPriority::WordBoundary` mismatch handler of `find_terms`: look
for the mismatched character within one hop of the root; move there only if
the terms reachable from the candidate intersect the restriction set,
otherwise keep the cursor unchanged. -/
def wbRecover (root now : WordListNode T) (c : Char) (restrict : List T) : WordListNode T :=
  match hope_for_success root c 1 with
  | some alt_word =>
    if (collect_terms alt_word none).any (fun x => decide (x ∈ restrict)) then alt_word else now
  | none => now

/-- The `FuzzPriority::TypoCorrection` mismatch handler of `find_terms`:
search descendants of the cursor within `fuzz` hops; on failure fall back to
a one-hop search from the root (moving there unconditionally if it
succeeds); otherwise keep the cursor unchanged. -/
def typoRecover (root now : WordListNode T) (c : Char) (fuzz : Nat) : WordListNode T :=
  match hope_for_success now c fuzz with
  | some alt_node => alt_node
  | none =>
    match hope_for_success root c 1 with
    | some alt_word => alt_word
    | none => now

/-- The restriction set captured at a mismatch: populated (once) with every
term reachable from the cursor if it is still empty, kept otherwise. -/
def extendRestrict (now : WordListNode T) (restrict : List T) : List T :=
  if restrict.length = 0 then uniqueList (collect_terms now none) else restrict

/-- The `for (i, c) in lower_query.chars().enumerate()` loop of
`find_terms`: consume the normalized query from index `i` with cursor `now`
and restriction set `restrict`; `none` models the early `return vec![]` on a
mid-word mismatch in a non-fuzzy search. -/
def walkQuery (root : WordListNode T) (kind : SearchKind) (maxI : Nat) :
    List Char → Nat → WordListNode T → List T → Option (WordListNode T × List T)
  | [], _, now, restrict => some (now, restrict)
  | c :: rest, i, now, restrict =>
    match now.children.find? c with
    | some x => walkQuery root kind maxI rest (i + 1) x restrict
    | none =>
      if i ≠ maxI then
        match kind with
        | .Fuzzy fuzz pri =>
          let restrict' := extendRestrict now restrict
          match pri with
          | .WordBoundary =>
            walkQuery root kind maxI rest (i + 1) (wbRecover root now c restrict') restrict'
          | .TypoCorrection =>
            walkQuery root kind maxI rest (i + 1) (typoRecover root now c fuzz) restrict'
        | _ => none
      else
        walkQuery root kind maxI rest (i + 1) now restrict

/-- A single pass of `find_terms` without the TypoCorrection fallback:
normalize the query, walk it, collect at the final cursor with the kind's
depth limit, deduplicate, and filter by the restriction set when one was
captured.  The early `return vec![]` (reachable only for non-fuzzy kinds)
becomes the empty result. -/
def findTermsOnce (root : WordListNode T) (query : String) (kind : SearchKind) : List T :=
  let lower_query := normChars query.data
  match walkQuery root kind (query.length - 1) lower_query 0 root [] with
  | none => []
  | some (now, restrict) =>
    let depth_limit : Option Nat := match kind with
      | .Fuzzy _ _ => none
      | .Prefix depth => some depth
      | .Strict => some 0
    (uniqueList (collect_terms now depth_limit)).filter
      (fun x => if 0 < restrict.length then decide (x ∈ restrict) else true)

/-- `find_terms`.  The source first evaluates `query.len() - 1`, which
underflows `usize` and panics when the query is empty: that partiality is
the `none` result.  Otherwise, if the deduplicated filtered result of a
`Fuzzy(fuzz, TypoCorrection)` search is empty, the source re-invokes
`self.find_terms(query, Fuzzy(fuzz, WordBoundary))`; since that inner call's
own fallback arm does nothing for `WordBoundary`, it returns its single
pass, which is inlined here. -/
def find_terms (root : WordListNode T) (query : String) (kind : SearchKind) :
    Option (List T) :=
  if query.length = 0 then none
  else some (
    let rslt := findTermsOnce root query kind
    if rslt.length = 0 then
      match kind with
      | .Fuzzy fuzz .TypoCorrection => findTermsOnce root query (.Fuzzy fuzz .WordBoundary)
      | _ => rslt
    else rslt)

/-- The depth limit `find_terms` passes to `collect_terms` for each search
kind (the `depth_limit` match of the source). -/
def depthLimit : SearchKind → Option Nat
  | .Fuzzy _ _ => none
  | .Prefix depth => some depth
  | .Strict => some 0

/-- Follow existing child edges along a path (no creation): the node of the
tree sitting at that normalized path, if any. -/
def nodeAtPath : WordListNode T → List Char → Option (WordListNode T)
  | n, [] => some n
  | n, c :: p =>
    match n.children.find? c with
    | some m => nodeAtPath m p
    | none => none

/-- The terms stored at the node at a given path (empty if the path is not
in the tree). -/
def termsAt (n : WordListNode T) (p : List Char) : List T :=
  match nodeAtPath n p with
  | some m => m.terms
  | none => []

/-- A term is stored at the end of path `p`. -/
def hasTermAt (n : WordListNode T) (p : List Char) (t : T) : Prop :=
  t ∈ termsAt n p

/-- The nodes of a child list, without their edge labels. -/
def ChildList.nodes : ChildList T → List (WordListNode T)
  | .nil => []
  | .cons _ n rest => n :: rest.nodes

/-- A term is stored somewhere within `d` levels below a node (the
specification-level reading of "terms within depth `d`"). -/
inductive TermWithin (x : T) : WordListNode T → Nat → Prop where
  | here (ts : List T) (cs : ChildList T) (d : Nat) (hx : x ∈ ts) :
      TermWithin x (.mk ts cs) d
  | there (ts : List T) (cs : ChildList T) (d : Nat) (n : WordListNode T)
      (hn : n ∈ cs.nodes) (hx : TermWithin x n d) :
      TermWithin x (.mk ts cs) (d + 1)

/-- Membership of a term in a (possibly panicking) `find_terms` result. -/
def memResult (x : T) (r : Option (List T)) : Prop :=
  ∃ l, r = some l ∧ x ∈ l

/-- The normalization of a whole string, as a string: lowercased with all
non-alphanumeric characters removed. -/
def normalizeStr (s : String) : String :=
  ⟨normChars s.data⟩

/-- Modelled from the claim's words (C2): the words of a term text read as
the maximal runs of alphanumeric characters, i.e. splitting at every maximal
run of non-alphanumeric characters with delimiters discarded. -/
def maximalWords : List Char → List (List Char)
  | [] => []
  | c :: cs =>
    let r := maximalWords cs
    if c.isAlphanum then
      match cs with
      | c2 :: _ => if c2.isAlphanum then (c :: r.headD []) :: r.tail else [c] :: r
      | [] => [[c]]
    else r

/-- Modelled from the claim's words (C2): the paths on which a learned term
is claimed to be inserted — one normalized path per maximal word, plus the
compact form (all alphanumeric characters concatenated, lowercased). -/
def claimPathsC2 (s : String) : List (List Char) :=
  (maximalWords s.data).map normChars ++ [(s.data.filter Char.isAlphanum).map Char.toLower]

/-- The paths on which `learn_term` actually inserts the term: one
normalized path per Rust-`split` word (empty words included), plus the
normalized compact form. -/
def codePathsLearn (s : String) : List (List Char) :=
  (splitNonAlnum s.data).map normChars ++ [normChars (s.data.filter Char.isAlphanum)]

/-- Concrete cursor node used to exercise the TypoCorrection fallback:
a leaf holding term `1`. -/
def C4A : WordListNode Nat := .mk [1] .nil

/-- Concrete sibling word node holding term `2`, reachable one hop from the
root. -/
def C4X : WordListNode Nat := .mk [2] .nil

/-- Concrete root whose children are `'a' ↦ C4A` and `'x' ↦ C4X`. -/
def C4root : WordListNode Nat := .mk [] (.cons 'a' C4A (.cons 'x' C4X .nil))

/-! ### Character-level facts (ASCII lowercasing and alphanumericity) -/

theorem toNat_ofNat_valid {n : Nat} (h : n.isValidChar) : (Char.ofNat n).toNat = n := by
  unfold Char.ofNat
  rw [dif_pos h]
  rfl

theorem char_isAlphanum_iff (c : Char) : c.isAlphanum = true ↔
    (65 ≤ c.toNat ∧ c.toNat ≤ 90) ∨ (97 ≤ c.toNat ∧ c.toNat ≤ 122) ∨
    (48 ≤ c.toNat ∧ c.toNat ≤ 57) := by
  unfold Char.isAlphanum Char.isAlpha Char.isUpper Char.isLower Char.isDigit
  rw [Bool.or_eq_true, Bool.or_eq_true, Bool.and_eq_true, Bool.and_eq_true, Bool.and_eq_true]
  rw [decide_eq_true_eq, decide_eq_true_eq, decide_eq_true_eq, decide_eq_true_eq,
    decide_eq_true_eq, decide_eq_true_eq]
  exact or_assoc.symm.symm

theorem toNat_toLower (c : Char) :
    c.toLower.toNat = if 65 ≤ c.toNat ∧ c.toNat ≤ 90 then c.toNat + 32 else c.toNat := by
  unfold Char.toLower
  split
  · next h =>
    rw [if_pos h, toNat_ofNat_valid]
    exact Or.inl (by omega)
  · next h => rw [if_neg h]

theorem toLower_of_not_upper (c : Char) (h : ¬(65 ≤ c.toNat ∧ c.toNat ≤ 90)) :
    c.toLower = c := by
  unfold Char.toLower
  rw [if_neg h]

theorem isAlphanum_toLower (c : Char) : c.toLower.isAlphanum = c.isAlphanum := by
  have ht := toNat_toLower c
  by_cases h : c.isAlphanum = true
  · rw [h, char_isAlphanum_iff]
    rw [char_isAlphanum_iff] at h
    by_cases hu : 65 ≤ c.toNat ∧ c.toNat ≤ 90
    · rw [if_pos hu] at ht
      omega
    · rw [if_neg hu] at ht
      omega
  · rw [Bool.not_eq_true] at h
    rw [h, ← Bool.not_eq_true, char_isAlphanum_iff]
    rw [← Bool.not_eq_true, char_isAlphanum_iff] at h
    by_cases hu : 65 ≤ c.toNat ∧ c.toNat ≤ 90
    · rw [if_pos hu] at ht
      omega
    · rw [if_neg hu] at ht
      omega

theorem toLower_toLower (c : Char) : c.toLower.toLower = c.toLower := by
  by_cases hu : 65 ≤ c.toNat ∧ c.toNat ≤ 90
  · apply toLower_of_not_upper
    have ht := toNat_toLower c
    rw [if_pos hu] at ht
    omega
  · rw [toLower_of_not_upper c hu, toLower_of_not_upper c hu]

/-! ### Normalization facts -/

theorem normChars_idem (l : List Char) : normChars (normChars l) = normChars l := by
  unfold normChars
  rw [List.map_congr_left (g := id), List.map_id, List.filter_eq_self.mpr]
  · intro c hc
    exact (List.mem_filter.mp hc).2
  · intro c hc
    rcases List.mem_map.mp (List.mem_filter.mp hc).1 with ⟨c0, _, rfl⟩
    exact toLower_toLower c0

theorem normChars_filter_isAlphanum (l : List Char) :
    normChars (l.filter Char.isAlphanum) = normChars l := by
  induction l with
  | nil => rfl
  | cons c cs ih =>
    unfold normChars at ih ⊢
    by_cases h : c.isAlphanum = true
    · rw [List.filter_cons_of_pos h]
      simp only [List.map_cons]
      rw [List.filter_cons_of_pos, List.filter_cons_of_pos, ih]
      · rw [isAlphanum_toLower]; exact h
      · rw [isAlphanum_toLower]; exact h
    · rw [List.filter_cons_of_neg (by simpa using h)]
      simp only [List.map_cons]
      rw [List.filter_cons_of_neg, ih]
      rw [isAlphanum_toLower]
      simpa using h

theorem normChars_length_le (l : List Char) : (normChars l).length ≤ l.length := by
  calc (normChars l).length ≤ (l.map Char.toLower).length := List.length_filter_le _ _
  _ = l.length := List.length_map _ _

theorem normChars_of_all_alnum (l : List Char) (h : ∀ c ∈ l, c.isAlphanum = true) :
    normChars l = l.map Char.toLower := by
  unfold normChars
  rw [List.filter_eq_self.mpr]
  intro c hc
  rcases List.mem_map.mp hc with ⟨c0, hc0, rfl⟩
  rw [isAlphanum_toLower]
  exact h c0 hc0

theorem normChars_of_all_non_alnum (l : List Char) (h : ∀ c ∈ l, c.isAlphanum = false) :
    normChars l = [] := by
  unfold normChars
  rw [List.filter_eq_nil_iff]
  intro c hc
  rcases List.mem_map.mp hc with ⟨c0, hc0, rfl⟩
  rw [isAlphanum_toLower, h c0 hc0]
  exact Bool.false_ne_true

/-! ### Set-list facts -/

theorem mem_insertSet (x t : T) (l : List T) : x ∈ insertSet t l ↔ x = t ∨ x ∈ l := by
  unfold insertSet
  split
  · next h =>
    constructor
    · exact fun hx => Or.inr hx
    · rintro (rfl | hx)
      · exact h
      · exact hx
  · exact List.mem_cons

theorem mem_uniqueAux (x : T) (l seen : List T) :
    x ∈ uniqueAux l seen ↔ x ∈ l ∧ x ∉ seen := by
  induction l generalizing seen with
  | nil => simp [uniqueAux]
  | cons y ys ih =>
    unfold uniqueAux
    split
    · next h =>
      rw [ih]
      constructor
      · rintro ⟨h1, h2⟩
        exact ⟨List.mem_cons_of_mem y h1, h2⟩
      · rintro ⟨h1, h2⟩
        rcases List.mem_cons.mp h1 with rfl | h1
        · exact absurd h h2
        · exact ⟨h1, h2⟩
    · next h =>
      rw [List.mem_cons, ih]
      by_cases hxy : x = y
      · subst hxy
        simp [h]
      · simp [hxy, List.mem_cons]

theorem mem_uniqueList (x : T) (l : List T) : x ∈ uniqueList l ↔ x ∈ l := by
  unfold uniqueList
  rw [mem_uniqueAux]
  simp

theorem nodup_uniqueAux (l seen : List T) : (uniqueAux l seen).Nodup := by
  induction l generalizing seen with
  | nil => exact List.nodup_nil
  | cons y ys ih =>
    unfold uniqueAux
    split
    · exact ih seen
    · refine List.Nodup.cons ?_ (ih (y :: seen))
      intro hy
      exact ((mem_uniqueAux y ys (y :: seen)).mp hy).2 (List.mem_cons_self y seen)

theorem nodup_uniqueList (l : List T) : (uniqueList l).Nodup := nodup_uniqueAux l []

theorem uniqueList_eq_nil (l : List T) : uniqueList l = [] ↔ l = [] := by
  cases l with
  | nil => simp [uniqueList, uniqueAux]
  | cons y ys =>
    simp only [uniqueList, uniqueAux]
    rw [if_neg (List.not_mem_nil y)]
    constructor
    · intro h
      exact absurd h (List.cons_ne_nil _ _)
    · intro h
      exact absurd h (List.cons_ne_nil _ _)

/-! ### Child-map and insertion facts -/

theorem find?_setChild_self (cs : ChildList T) (c : Char) (m : WordListNode T) :
    (cs.setChild c m).find? c = some m := by
  cases cs with
  | nil => simp [ChildList.setChild, ChildList.find?]
  | cons c' n rest =>
    unfold ChildList.setChild
    by_cases h : c' = c
    · rw [if_pos h]
      unfold ChildList.find?
      rw [if_pos h]
    · rw [if_neg h]
      unfold ChildList.find?
      rw [if_neg h]
      exact find?_setChild_self rest c m

theorem find?_setChild_ne (cs : ChildList T) (c c' : Char) (m : WordListNode T)
    (h : c' ≠ c) : (cs.setChild c m).find? c' = cs.find? c' := by
  cases cs with
  | nil =>
    simp only [ChildList.setChild, ChildList.find?]
    rw [if_neg (fun hc => h hc.symm)]
  | cons c0 n rest =>
    unfold ChildList.setChild
    by_cases h0 : c0 = c
    · rw [if_pos h0]
      unfold ChildList.find?
      rw [if_neg (h0 ▸ fun hc => h hc.symm), if_neg (h0 ▸ fun hc => h hc.symm)]
    · rw [if_neg h0]
      unfold ChildList.find?
      by_cases h1 : c0 = c'
      · rw [if_pos h1, if_pos h1]
      · rw [if_neg h1, if_neg h1]
        exact find?_setChild_ne rest c c' m h

theorem setChild_self_of_find? (cs : ChildList T) (c : Char) (m : WordListNode T)
    (h : cs.find? c = some m) : cs.setChild c m = cs := by
  cases cs with
  | nil => exact absurd h (by simp [ChildList.find?])
  | cons c' n rest =>
    unfold ChildList.find? at h
    unfold ChildList.setChild
    by_cases h0 : c' = c
    · rw [if_pos h0] at h ⊢
      rw [Option.some_inj.mp h]
    · rw [if_neg h0] at h ⊢
      rw [setChild_self_of_find? rest c m h]

theorem termsAt_new (p : List Char) : termsAt (WordListNode.new : WordListNode T) p = [] := by
  cases p with
  | nil => rfl
  | cons c cs => rfl

theorem termsAt_nil (n : WordListNode T) : termsAt n [] = n.terms := rfl

theorem termsAt_cons (ts : List T) (cs : ChildList T) (c : Char) (p : List Char) :
    termsAt (WordListNode.mk ts cs) (c :: p) =
      match cs.find? c with
      | some m => termsAt m p
      | none => [] := by
  cases hf : cs.find? c with
  | some m => simp [termsAt, nodeAtPath, WordListNode.children, hf]
  | none => simp [termsAt, nodeAtPath, WordListNode.children, hf]

theorem insertTermAt_nil (ts : List T) (cs : ChildList T) (t : T) :
    insertTermAt (WordListNode.mk ts cs) [] t = WordListNode.mk (insertSet t ts) cs := rfl

theorem insertTermAt_cons (ts : List T) (cs : ChildList T) (c : Char) (q : List Char) (t : T) :
    insertTermAt (WordListNode.mk ts cs) (c :: q) t =
      WordListNode.mk ts (cs.setChild c (insertTermAt
        (match cs.find? c with
          | some m => m
          | none => WordListNode.new) q t)) := rfl

theorem termsAt_childOrNew (ts : List T) (cs : ChildList T) (c : Char) (p : List Char) :
    termsAt (match cs.find? c with
      | some m => m
      | none => (WordListNode.new : WordListNode T)) p =
      termsAt (WordListNode.mk ts cs) (c :: p) := by
  rw [termsAt_cons]
  cases hf : cs.find? c with
  | some m => rfl
  | none => exact termsAt_new p

theorem termsAt_insertTermAt (n : WordListNode T) (q p : List Char) (t : T) :
    termsAt (insertTermAt n q t) p =
      if p = q then insertSet t (termsAt n q) else termsAt n p := by
  induction q generalizing n p with
  | nil =>
    cases n with
    | mk ts cs =>
      cases p with
      | nil => simp [insertTermAt_nil, termsAt_nil, WordListNode.terms]
      | cons c p' =>
        rw [if_neg (List.cons_ne_nil c p'), insertTermAt_nil, termsAt_cons, termsAt_cons]
  | cons c q' ih =>
    cases n with
    | mk ts cs =>
      cases p with
      | nil =>
        rw [if_neg (fun h => List.noConfusion h), insertTermAt_cons, termsAt_nil, termsAt_nil]
        rfl
      | cons c0 p' =>
        rw [insertTermAt_cons]
        by_cases hc : c0 = c
        · subst hc
          rw [termsAt_cons, find?_setChild_self]
          show termsAt (insertTermAt
            (match cs.find? c0 with
              | some m => m
              | none => WordListNode.new) q' t) p' = _
          rw [ih, termsAt_childOrNew ts, termsAt_childOrNew ts]
          by_cases hp : p' = q'
          · rw [if_pos hp, if_pos (by rw [hp])]
          · rw [if_neg hp, if_neg (fun h => hp (by injection h))]
        · rw [termsAt_cons, find?_setChild_ne _ _ _ _ hc,
            if_neg (fun h => hc (by injection h)), termsAt_cons]

theorem mem_termsAt_insertTermAt (n : WordListNode T) (q p : List Char) (t x : T) :
    x ∈ termsAt (insertTermAt n q t) p ↔ x ∈ termsAt n p ∨ (x = t ∧ p = q) := by
  rw [termsAt_insertTermAt]
  by_cases hp : p = q
  · subst hp
    rw [if_pos rfl, mem_insertSet]
    constructor
    · rintro (rfl | hx)
      · exact Or.inr ⟨rfl, rfl⟩
      · exact Or.inl hx
    · rintro (hx | ⟨rfl, -⟩)
      · exact Or.inr hx
      · exact Or.inl rfl
  · rw [if_neg hp]
    constructor
    · exact fun hx => Or.inl hx
    · rintro (hx | ⟨-, hq⟩)
      · exact hx
      · exact absurd hq hp

theorem hasTermAt_insertTermAt_self (n : WordListNode T) (p : List Char) (t : T) :
    hasTermAt (insertTermAt n p t) p t := by
  unfold hasTermAt
  rw [mem_termsAt_insertTermAt]
  exact Or.inr ⟨rfl, rfl⟩

theorem hasTermAt_insertTermAt_of (n : WordListNode T) (q p : List Char) (t x : T)
    (h : hasTermAt n p x) : hasTermAt (insertTermAt n q t) p x := by
  unfold hasTermAt at h ⊢
  rw [mem_termsAt_insertTermAt]
  exact Or.inl h

theorem insertTermAt_self_of_hasTermAt (n : WordListNode T) (p : List Char) (t : T)
    (h : hasTermAt n p t) : insertTermAt n p t = n := by
  induction p generalizing n with
  | nil =>
    cases n with
    | mk ts cs =>
      unfold hasTermAt termsAt nodeAtPath at h
      simp only [WordListNode.terms] at h
      unfold insertTermAt insertSet
      rw [if_pos h]
  | cons c p' ih =>
    cases n with
    | mk ts cs =>
      unfold hasTermAt at h
      rw [termsAt_cons] at h
      cases hf : cs.find? c with
      | none => rw [hf] at h; exact absurd h (List.not_mem_nil t)
      | some m =>
        rw [hf] at h
        rw [insertTermAt_cons, hf, ih m h, setChild_self_of_find? cs c m hf]

/-! ### Learning facts -/

theorem mem_termsAt_foldl_learn_word (ws : List (List Char)) (n : WordListNode T)
    (t x : T) (p : List Char) :
    x ∈ termsAt (ws.foldl (fun acc w => learn_word acc w t) n) p ↔
      x ∈ termsAt n p ∨ (x = t ∧ ∃ w ∈ ws, p = normChars w) := by
  induction ws generalizing n with
  | nil => simp
  | cons w ws ih =>
    rw [List.foldl_cons, ih]
    unfold learn_word
    rw [mem_termsAt_insertTermAt]
    simp only [List.mem_cons]
    constructor
    · rintro ((hx | ⟨rfl, hp⟩) | ⟨rfl, w', hw', rfl⟩)
      · exact Or.inl hx
      · exact Or.inr ⟨rfl, w, Or.inl rfl, hp⟩
      · exact Or.inr ⟨rfl, w', Or.inr hw', rfl⟩
    · rintro (hx | ⟨rfl, w', (rfl | hw'), rfl⟩)
      · exact Or.inl (Or.inl hx)
      · exact Or.inl (Or.inr ⟨rfl, rfl⟩)
      · exact Or.inr ⟨rfl, w', hw', rfl⟩

theorem mem_termsAt_learn_word (n : WordListNode T) (w : List Char) (t x : T) (p : List Char) :
    x ∈ termsAt (learn_word n w t) p ↔ x ∈ termsAt n p ∨ (x = t ∧ p = normChars w) :=
  mem_termsAt_insertTermAt n (normChars w) p t x

theorem mem_termsAt_learn_term (n : WordListNode T) (s : String) (t x : T) (p : List Char) :
    x ∈ termsAt (learn_term n s t) p ↔
      x ∈ termsAt n p ∨ (x = t ∧ p ∈ codePathsLearn s) := by
  unfold learn_term
  show x ∈ termsAt (learn_word ((splitNonAlnum s.data).foldl
    (fun acc w => learn_word acc w t) n) (s.data.filter Char.isAlphanum) t) p ↔ _
  rw [mem_termsAt_learn_word, mem_termsAt_foldl_learn_word]
  unfold codePathsLearn
  simp only [List.mem_append, List.mem_map, List.mem_singleton]
  constructor
  · rintro ((hx | ⟨rfl, w, hw, rfl⟩) | ⟨rfl, rfl⟩)
    · exact Or.inl hx
    · exact Or.inr ⟨rfl, Or.inl ⟨w, hw, rfl⟩⟩
    · exact Or.inr ⟨rfl, Or.inr rfl⟩
  · rintro (hx | ⟨rfl, ⟨w, hw, rfl⟩ | rfl⟩)
    · exact Or.inl (Or.inl hx)
    · exact Or.inl (Or.inr ⟨rfl, w, hw, rfl⟩)
    · exact Or.inr ⟨rfl, rfl⟩

theorem foldl_learn_word_id (ws : List (List Char)) (n : WordListNode T) (t : T)
    (h : ∀ w ∈ ws, hasTermAt n (normChars w) t) :
    ws.foldl (fun acc w => learn_word acc w t) n = n := by
  induction ws with
  | nil => rfl
  | cons w ws ih =>
    rw [List.foldl_cons]
    have h1 : learn_word n w t = n :=
      insertTermAt_self_of_hasTermAt _ _ _ (h w (List.mem_cons_self w ws))
    rw [h1]
    exact ih (fun w' hw' => h w' (List.mem_cons_of_mem _ hw'))

theorem learn_term_idem (n : WordListNode T) (s : String) (t : T) :
    learn_term (learn_term n s t) s t = learn_term n s t := by
  have hall : ∀ p ∈ codePathsLearn s, hasTermAt (learn_term n s t) p t := by
    intro p hp
    unfold hasTermAt
    rw [mem_termsAt_learn_term]
    exact Or.inr ⟨rfl, hp⟩
  generalize hN : learn_term n s t = N at hall
  rw [← hN]
  generalize hN2 : learn_term n s t = N2 at hN
  rw [hN]
  clear hN hN2
  show learn_word ((splitNonAlnum s.data).foldl (fun acc w => learn_word acc w t) N)
    (s.data.filter Char.isAlphanum) t = N
  have h1 : (splitNonAlnum s.data).foldl (fun acc w => learn_word acc w t) N = N := by
    apply foldl_learn_word_id
    intro w hw
    apply hall
    unfold codePathsLearn
    exact List.mem_append.mpr (Or.inl (List.mem_map.mpr ⟨w, hw, rfl⟩))
  rw [h1]
  unfold learn_word
  apply insertTermAt_self_of_hasTermAt
  apply hall
  unfold codePathsLearn
  exact List.mem_append.mpr (Or.inr (List.mem_singleton.mpr rfl))

theorem hasTermAt_learn_self (n : WordListNode String) (s : String) :
    hasTermAt (learn n s) (normChars s.data) s := by
  unfold learn hasTermAt
  rw [mem_termsAt_learn_term]
  refine Or.inr ⟨rfl, ?_⟩
  unfold codePathsLearn
  rw [← normChars_filter_isAlphanum s.data]
  exact List.mem_append.mpr (Or.inr (List.mem_singleton.mpr rfl))

theorem hasTermAt_foldl_learn_of (ss : List String) (n : WordListNode String)
    (p : List Char) (x : String) (h : hasTermAt n p x) :
    hasTermAt (ss.foldl learn n) p x := by
  induction ss generalizing n with
  | nil => exact h
  | cons s ss ih =>
    rw [List.foldl_cons]
    apply ih
    unfold learn hasTermAt
    rw [mem_termsAt_learn_term]
    exact Or.inl h

theorem hasTermAt_buildDict (ts : List String) (t : String) (ht : t ∈ ts) :
    hasTermAt (buildDict ts) (normChars t.data) t := by
  unfold buildDict
  generalize WordListNode.new = n
  induction ts generalizing n with
  | nil => exact absurd ht (List.not_mem_nil t)
  | cons s ss ih =>
    rw [List.foldl_cons]
    rcases List.mem_cons.mp ht with rfl | ht'
    · exact hasTermAt_foldl_learn_of ss _ _ _ (hasTermAt_learn_self n t)
    · exact ih ht' _

/-! ### Collection facts -/

theorem nodes_nil : (ChildList.nil : ChildList T).nodes = [] := rfl

theorem nodes_cons (c : Char) (n : WordListNode T) (rest : ChildList T) :
    (ChildList.cons c n rest).nodes = n :: rest.nodes := rfl

theorem collect_terms_zero (n : WordListNode T) : collect_terms n (some 0) = n.terms := by
  cases n with
  | mk ts cs =>
    unfold collect_terms
    rw [if_neg (by omega)]
    rfl

theorem TermWithin_mono {x : T} {n : WordListNode T} {d1 d2 : Nat} (h12 : d1 ≤ d2)
    (h : TermWithin x n d1) : TermWithin x n d2 := by
  induction h generalizing d2 with
  | here ts cs d hx => exact .here ts cs d2 hx
  | there ts cs d n hm hx ih =>
    obtain ⟨d2', rfl⟩ : ∃ d2', d2 = d2' + 1 := ⟨d2 - 1, by omega⟩
    exact .there ts cs d2' n hm (ih (by omega))

mutual

theorem mem_collect_terms_some (n : WordListNode T) (d : Nat) (x : T) :
    x ∈ collect_terms n (some d) ↔ TermWithin x n d := by
  cases n with
  | mk ts cs =>
    unfold collect_terms
    by_cases hd : 0 < d
    · rw [if_pos hd, List.mem_append, mem_collectChildren_some cs (d - 1) x]
      constructor
      · rintro (hx | ⟨m, hm, hx⟩)
        · exact .here ts cs d hx
        · have : TermWithin x (WordListNode.mk ts cs) (d - 1 + 1) := .there ts cs (d - 1) m hm hx
          exact TermWithin_mono (by omega) this
      · intro h
        cases h with
        | here _ _ _ hx => exact Or.inl hx
        | there _ _ d' m hm hx => exact Or.inr ⟨m, hm, TermWithin_mono (by omega) hx⟩
    · rw [if_neg hd]
      constructor
      · exact fun hx => .here ts cs d hx
      · intro h
        cases h with
        | here _ _ _ hx => exact hx
        | there _ _ d' m hm hx => omega

theorem mem_collectChildren_some (cs : ChildList T) (d : Nat) (x : T) :
    x ∈ collectChildren cs (some d) ↔ ∃ m ∈ cs.nodes, TermWithin x m d := by
  cases cs with
  | nil => simp [collectChildren, ChildList.nodes]
  | cons c n rest =>
    unfold collectChildren
    rw [List.mem_append, mem_collect_terms_some n d x, mem_collectChildren_some rest d x,
      nodes_cons]
    simp only [List.mem_cons]
    constructor
    · rintro (hx | ⟨m, hm, hx⟩)
      · exact ⟨n, Or.inl rfl, hx⟩
      · exact ⟨m, Or.inr hm, hx⟩
    · rintro ⟨m, rfl | hm, hx⟩
      · exact Or.inl hx
      · exact Or.inr ⟨m, hm, hx⟩

end

mutual

theorem mem_collect_terms_none (n : WordListNode T) (x : T) :
    x ∈ collect_terms n none ↔ ∃ d, TermWithin x n d := by
  cases n with
  | mk ts cs =>
    unfold collect_terms
    rw [List.mem_append, mem_collectChildren_none cs x]
    constructor
    · rintro (hx | ⟨m, hm, d, hx⟩)
      · exact ⟨0, .here ts cs 0 hx⟩
      · exact ⟨d + 1, .there ts cs d m hm hx⟩
    · rintro ⟨d, hd⟩
      cases hd with
      | here _ _ _ hx => exact Or.inl hx
      | there _ _ d' m hm hx => exact Or.inr ⟨m, hm, d', hx⟩

theorem mem_collectChildren_none (cs : ChildList T) (x : T) :
    x ∈ collectChildren cs none ↔ ∃ m ∈ cs.nodes, ∃ d, TermWithin x m d := by
  cases cs with
  | nil => simp [collectChildren, ChildList.nodes]
  | cons c n rest =>
    unfold collectChildren
    rw [List.mem_append, mem_collect_terms_none n x, mem_collectChildren_none rest x,
      nodes_cons]
    simp only [List.mem_cons]
    constructor
    · rintro (hx | ⟨m, hm, hx⟩)
      · exact ⟨n, Or.inl rfl, hx⟩
      · exact ⟨m, Or.inr hm, hx⟩
    · rintro ⟨m, rfl | hm, hx⟩
      · exact Or.inl hx
      · exact Or.inr ⟨m, hm, hx⟩

end

theorem mem_collect_terms_mono (n : WordListNode T) (d1 d2 : Nat) (h : d1 ≤ d2) (x : T)
    (hx : x ∈ collect_terms n (some d1)) : x ∈ collect_terms n (some d2) := by
  rw [mem_collect_terms_some] at hx ⊢
  exact TermWithin_mono h hx

/-! ### Query-walk facts -/

theorem walkQuery_nil (root : WordListNode T) (kind : SearchKind) (maxI i : Nat)
    (now : WordListNode T) (r : List T) :
    walkQuery root kind maxI [] i now r = some (now, r) := rfl

theorem walkQuery_cons (root : WordListNode T) (kind : SearchKind) (maxI i : Nat)
    (now : WordListNode T) (r : List T) (c : Char) (rest : List Char) :
    walkQuery root kind maxI (c :: rest) i now r =
      match now.children.find? c with
      | some x => walkQuery root kind maxI rest (i + 1) x r
      | none =>
        if i ≠ maxI then
          match kind with
          | .Fuzzy fuzz pri =>
            let restrict' := extendRestrict now r
            match pri with
            | .WordBoundary =>
              walkQuery root kind maxI rest (i + 1) (wbRecover root now c restrict') restrict'
            | .TypoCorrection =>
              walkQuery root kind maxI rest (i + 1) (typoRecover root now c fuzz) restrict'
          | _ => none
        else
          walkQuery root kind maxI rest (i + 1) now r := rfl

theorem walkQuery_cons_found (root : WordListNode T) (kind : SearchKind) (maxI i : Nat)
    (now x : WordListNode T) (r : List T) (c : Char) (rest : List Char)
    (hf : now.children.find? c = some x) :
    walkQuery root kind maxI (c :: rest) i now r =
      walkQuery root kind maxI rest (i + 1) x r := by
  rw [walkQuery_cons, hf]

theorem walkQuery_cons_miss_last (root : WordListNode T) (kind : SearchKind) (maxI i : Nat)
    (now : WordListNode T) (r : List T) (c : Char) (rest : List Char)
    (hf : now.children.find? c = none) (hi : i = maxI) :
    walkQuery root kind maxI (c :: rest) i now r =
      walkQuery root kind maxI rest (i + 1) now r := by
  rw [walkQuery_cons, hf, if_neg (not_not_intro hi)]

theorem walkQuery_cons_miss_strict (root : WordListNode T) (maxI i : Nat)
    (now : WordListNode T) (r : List T) (c : Char) (rest : List Char)
    (hf : now.children.find? c = none) (hi : i ≠ maxI) :
    walkQuery root .Strict maxI (c :: rest) i now r = none := by
  rw [walkQuery_cons, hf, if_pos hi]

theorem walkQuery_cons_miss_prefixKind (root : WordListNode T) (d maxI i : Nat)
    (now : WordListNode T) (r : List T) (c : Char) (rest : List Char)
    (hf : now.children.find? c = none) (hi : i ≠ maxI) :
    walkQuery root (.Prefix d) maxI (c :: rest) i now r = none := by
  rw [walkQuery_cons, hf, if_pos hi]

theorem walkQuery_cons_miss_wb (root : WordListNode T) (f maxI i : Nat)
    (now : WordListNode T) (r : List T) (c : Char) (rest : List Char)
    (hf : now.children.find? c = none) (hi : i ≠ maxI) :
    walkQuery root (.Fuzzy f .WordBoundary) maxI (c :: rest) i now r =
      walkQuery root (.Fuzzy f .WordBoundary) maxI rest (i + 1)
        (wbRecover root now c (extendRestrict now r)) (extendRestrict now r) := by
  rw [walkQuery_cons, hf, if_pos hi]

theorem walkQuery_cons_miss_typo (root : WordListNode T) (f maxI i : Nat)
    (now : WordListNode T) (r : List T) (c : Char) (rest : List Char)
    (hf : now.children.find? c = none) (hi : i ≠ maxI) :
    walkQuery root (.Fuzzy f .TypoCorrection) maxI (c :: rest) i now r =
      walkQuery root (.Fuzzy f .TypoCorrection) maxI rest (i + 1)
        (typoRecover root now c f) (extendRestrict now r) := by
  rw [walkQuery_cons, hf, if_pos hi]

theorem walkQuery_append_of_nodeAtPath (p : List Char) (root : WordListNode T)
    (kind : SearchKind) (maxI : Nat) (rest : List Char) (i : Nat)
    (now m : WordListNode T) (r : List T) (h : nodeAtPath now p = some m) :
    walkQuery root kind maxI (p ++ rest) i now r =
      walkQuery root kind maxI rest (i + p.length) m r := by
  induction p generalizing now i with
  | nil =>
    unfold nodeAtPath at h
    rw [Option.some_inj.mp h]
    rfl
  | cons c p' ih =>
    unfold nodeAtPath at h
    cases hf : now.children.find? c with
    | none => rw [hf] at h; exact absurd h (by simp)
    | some m0 =>
      rw [hf] at h
      rw [List.cons_append, walkQuery_cons_found root kind maxI i now m0 r c _ hf, ih _ _ h]
      congr 1
      simp only [List.length_cons]
      omega

theorem walkQuery_prefix_restrict (l : List Char) (root : WordListNode T) (d maxI i : Nat)
    (now m : WordListNode T) (r r' : List T)
    (h : walkQuery root (.Prefix d) maxI l i now r = some (m, r')) : r' = r := by
  induction l generalizing now i with
  | nil =>
    rw [walkQuery_nil] at h
    exact (congrArg Prod.snd (Option.some_inj.mp h)).symm
  | cons c rest ih =>
    cases hf : now.children.find? c with
    | some x =>
      rw [walkQuery_cons_found root _ maxI i now x r c rest hf] at h
      exact ih _ _ h
    | none =>
      by_cases hi : i = maxI
      · rw [walkQuery_cons_miss_last root _ maxI i now r c rest hf hi] at h
        exact ih _ _ h
      · rw [walkQuery_cons_miss_prefixKind root d maxI i now r c rest hf hi] at h
        exact absurd h (by simp)

theorem walkQuery_strict_restrict (l : List Char) (root : WordListNode T) (maxI i : Nat)
    (now m : WordListNode T) (r r' : List T)
    (h : walkQuery root .Strict maxI l i now r = some (m, r')) : r' = r := by
  induction l generalizing now i with
  | nil =>
    rw [walkQuery_nil] at h
    exact (congrArg Prod.snd (Option.some_inj.mp h)).symm
  | cons c rest ih =>
    cases hf : now.children.find? c with
    | some x =>
      rw [walkQuery_cons_found root _ maxI i now x r c rest hf] at h
      exact ih _ _ h
    | none =>
      by_cases hi : i = maxI
      · rw [walkQuery_cons_miss_last root _ maxI i now r c rest hf hi] at h
        exact ih _ _ h
      · rw [walkQuery_cons_miss_strict root maxI i now r c rest hf hi] at h
        exact absurd h (by simp)

theorem walkQuery_prefix_depth_eq (l : List Char) (root : WordListNode T)
    (d1 d2 maxI i : Nat) (now : WordListNode T) (r : List T) :
    walkQuery root (.Prefix d1) maxI l i now r =
      walkQuery root (.Prefix d2) maxI l i now r := by
  induction l generalizing now i r with
  | nil => rfl
  | cons c rest ih =>
    cases hf : now.children.find? c with
    | some x =>
      rw [walkQuery_cons_found root _ maxI i now x r c rest hf,
        walkQuery_cons_found root _ maxI i now x r c rest hf]
      exact ih _ _ r
    | none =>
      by_cases hi : i = maxI
      · rw [walkQuery_cons_miss_last root _ maxI i now r c rest hf hi,
          walkQuery_cons_miss_last root _ maxI i now r c rest hf hi]
        exact ih _ _ r
      · rw [walkQuery_cons_miss_prefixKind root d1 maxI i now r c rest hf hi,
          walkQuery_cons_miss_prefixKind root d2 maxI i now r c rest hf hi]

/-! ### Result-assembly facts -/

theorem findTermsOnce_of_walk_none (root : WordListNode T) (query : String) (kind : SearchKind)
    (h : walkQuery root kind (query.length - 1) (normChars query.data) 0 root [] = none) :
    findTermsOnce root query kind = [] := by
  simp only [findTermsOnce, h]

theorem findTermsOnce_of_walk (root : WordListNode T) (query : String) (kind : SearchKind)
    (m : WordListNode T) (r : List T)
    (h : walkQuery root kind (query.length - 1) (normChars query.data) 0 root [] = some (m, r)) :
    findTermsOnce root query kind =
      (uniqueList (collect_terms m (depthLimit kind))).filter
        (fun x => if 0 < r.length then decide (x ∈ r) else true) := by
  cases kind with
  | Strict => simp only [findTermsOnce, h, depthLimit]
  | Prefix d => simp only [findTermsOnce, h, depthLimit]
  | Fuzzy f pri => simp only [findTermsOnce, h, depthLimit]

theorem findTermsOnce_of_walk_nil_restrict (root : WordListNode T) (query : String)
    (kind : SearchKind) (m : WordListNode T)
    (h : walkQuery root kind (query.length - 1) (normChars query.data) 0 root [] =
      some (m, [])) :
    findTermsOnce root query kind = uniqueList (collect_terms m (depthLimit kind)) := by
  rw [findTermsOnce_of_walk root query kind m [] h]
  have hfun : (fun (x : T) => if 0 < ([] : List T).length then decide (x ∈ ([] : List T))
      else true) = fun _ => true := by
    funext x
    simp
  rw [hfun, List.filter_true]

theorem find_terms_eq_once_not_typo (root : WordListNode T) (query : String)
    (kind : SearchKind) (hq : query.length ≠ 0)
    (hk : ∀ f, kind ≠ .Fuzzy f .TypoCorrection) :
    find_terms root query kind = some (findTermsOnce root query kind) := by
  unfold find_terms
  rw [if_neg hq]
  cases kind with
  | Strict =>
    show some (if (findTermsOnce root query .Strict).length = 0
      then findTermsOnce root query .Strict else findTermsOnce root query .Strict) = _
    rw [ite_self]
  | Prefix d =>
    show some (if (findTermsOnce root query (.Prefix d)).length = 0
      then findTermsOnce root query (.Prefix d) else findTermsOnce root query (.Prefix d)) = _
    rw [ite_self]
  | Fuzzy f pri =>
    cases pri with
    | WordBoundary =>
      show some (if (findTermsOnce root query (.Fuzzy f .WordBoundary)).length = 0
        then findTermsOnce root query (.Fuzzy f .WordBoundary)
        else findTermsOnce root query (.Fuzzy f .WordBoundary)) = _
      rw [ite_self]
    | TypoCorrection => exact absurd rfl (hk f)

theorem find_terms_typo (root : WordListNode T) (query : String) (f : Nat)
    (hq : query.length ≠ 0) :
    find_terms root query (.Fuzzy f .TypoCorrection) =
      some (if (findTermsOnce root query (.Fuzzy f .TypoCorrection)).length = 0
        then findTermsOnce root query (.Fuzzy f .WordBoundary)
        else findTermsOnce root query (.Fuzzy f .TypoCorrection)) := by
  unfold find_terms
  rw [if_neg hq]

/-- The inlined fallback of `find_terms` satisfies exactly the source's
recursion: an empty deduplicated filtered TypoCorrection result re-invokes
`find_terms` on the same query with `Fuzzy(fuzz, WordBoundary)`. -/
theorem find_terms_fallback_recursion (root : WordListNode T) (query : String) (f : Nat) :
    find_terms root query (.Fuzzy f .TypoCorrection) =
      if query.length = 0 then none
      else if (findTermsOnce root query (.Fuzzy f .TypoCorrection)).length = 0
        then find_terms root query (.Fuzzy f .WordBoundary)
        else some (findTermsOnce root query (.Fuzzy f .TypoCorrection)) := by
  by_cases hq : query.length = 0
  · rw [if_pos hq]
    unfold find_terms
    rw [if_pos hq]
  · rw [if_neg hq, find_terms_typo root query f hq,
      find_terms_eq_once_not_typo root query (.Fuzzy f .WordBoundary) hq
        (fun f' h => by injection h with h1 h2; exact FuzzPriority.noConfusion h2)]
    split <;> rfl

theorem normalizeStr_data (s : String) : (normalizeStr s).data = normChars s.data := rfl

theorem string_length_eq_data_length (s : String) : s.length = s.data.length := rfl

theorem normalizeStr_ne_empty (s : String) (h : normalizeStr s ≠ "") :
    normChars s.data ≠ [] := by
  intro hc
  apply h
  show (⟨normChars s.data⟩ : String) = ""
  rw [hc]

theorem walkQuery_full_path (p : List Char) (root m : WordListNode T) (kind : SearchKind)
    (maxI : Nat) (r : List T) (h : nodeAtPath root p = some m) :
    walkQuery root kind maxI p 0 root r = some (m, r) := by
  have happ := walkQuery_append_of_nodeAtPath p root kind maxI [] 0 root m r h
  rw [List.append_nil] at happ
  rw [happ, walkQuery_nil]

theorem findTermsOnce_nodup (root : WordListNode T) (q : String) (kind : SearchKind) :
    (findTermsOnce root q kind).Nodup := by
  cases hw : walkQuery root kind (q.length - 1) (normChars q.data) 0 root [] with
  | none =>
    rw [findTermsOnce_of_walk_none root q kind hw]
    exact List.nodup_nil
  | some pr =>
    obtain ⟨m, r⟩ := pr
    rw [findTermsOnce_of_walk root q kind m r hw]
    exact (nodup_uniqueList _).filter _

theorem find_terms_nodup (root : WordListNode T) (q : String) (k : SearchKind) (l : List T)
    (h : find_terms root q k = some l) : l.Nodup := by
  by_cases hq : q.length = 0
  · unfold find_terms at h
    rw [if_pos hq] at h
    exact absurd h (by simp)
  · by_cases hty : ∃ f, k = .Fuzzy f .TypoCorrection
    · obtain ⟨f, rfl⟩ := hty
      rw [find_terms_typo root q f hq] at h
      rw [← Option.some_inj.mp h]
      split
      · exact findTermsOnce_nodup _ _ _
      · exact findTermsOnce_nodup _ _ _
    · rw [find_terms_eq_once_not_typo root q k hq (fun f hf => hty ⟨f, hf⟩)] at h
      rw [← Option.some_inj.mp h]
      exact findTermsOnce_nodup _ _ _

/-! ### Claim theorems -/

/-- C3: the specification demands a defined empty result on every query whose
normalized form is empty, but the code first evaluates `query.len() - 1`,
which underflows `usize` on the empty query string: for every dictionary and
every search kind the model's `find_terms` has no defined result (`none`,
the panic) on `""`. -/
theorem C3_empty_query_underflow (d : WordListNode String) (k : SearchKind) :
    find_terms d "" k = none := rfl

/-- C2: counterexample — learning the term text `"a!"` inserts the term into
the root's `terms` set, because Rust's `split` on the non-alphanumeric
delimiter produces a trailing empty word whose path is empty; the claimed
path set (one normalized path per maximal word plus the compact form)
does not contain the empty path, so the inserted-path set is not the claimed
one. -/
theorem C2_counterexample :
    termsAt (learn_term (WordListNode.new : WordListNode String) "a!" "a!") [] = ["a!"]
    ∧ [] ∉ claimPathsC2 "a!" := by
  refine ⟨rfl, ?_⟩
  decide

/-- C2 (amended): `learn(term_value, term_text)` splits `term_text` at every
single non-alphanumeric character (Rust `split` semantics, so empty words
appear between adjacent delimiters and at delimiter-adjacent ends, an empty
word's path being the root), and the set of paths on which the term is
inserted is exactly one normalized path per such word plus the normalized
compact form — for any tree, term and path. -/
theorem C2_amended_learn_paths (n : WordListNode T) (s : String) (t x : T) (p : List Char) :
    x ∈ termsAt (learn_term n s t) p ↔
      x ∈ termsAt n p ∨ (x = t ∧ p ∈ codePathsLearn s) :=
  mem_termsAt_learn_term n s t x p

/-- C4: counterexample — in a TypoCorrection mismatch step where the
fuzz-bounded DFS from the cursor `C4A` fails, the root-level 1-hop search
finds `C4X`, whose reachable terms do not intersect the captured restriction
set, yet the loop moves the cursor to `C4X` (instead of absorbing the
character as noise with the cursor unchanged, as the claim states). -/
theorem C4_counterexample :
    hope_for_success C4A 'x' 1 = none
    ∧ hope_for_success C4root 'x' 1 = some C4X
    ∧ ((collect_terms C4X none).any fun y => decide (y ∈ extendRestrict C4A [])) = false
    ∧ walkQuery C4root (.Fuzzy 1 .TypoCorrection) 5 ['x'] 1 C4A [] =
        some (C4X, extendRestrict C4A [])
    ∧ C4X ≠ C4A := by
  refine ⟨rfl, rfl, rfl, rfl, ?_⟩
  decide

/-- C4 (amended): when the fuzz-bounded DFS from the cursor fails, the
fallback root-level 1-hop search moves the cursor to its candidate
unconditionally — the restriction set is not consulted — and only when that
search also fails is the mismatched character absorbed as noise with the
cursor unchanged. -/
theorem C4_amended_typo_fallback (root now : WordListNode T) (c : Char) (rest : List Char)
    (i maxI fuzz : Nat) (restrict : List T)
    (hmiss : now.children.find? c = none) (hi : i ≠ maxI)
    (hdfs : hope_for_success now c fuzz = none) :
    walkQuery root (.Fuzzy fuzz .TypoCorrection) maxI (c :: rest) i now restrict =
      walkQuery root (.Fuzzy fuzz .TypoCorrection) maxI rest (i + 1)
        (match hope_for_success root c 1 with
          | some alt_word => alt_word
          | none => now)
        (extendRestrict now restrict) := by
  rw [walkQuery_cons_miss_typo root fuzz maxI i now restrict c rest hmiss hi]
  congr 1
  unfold typoRecover
  rw [hdfs]

/-- C4 witness: the amended fallback characterization instantiated at the
concrete mismatch state of the counterexample dictionary. -/
theorem C4_witness :
    C4A.children.find? 'x' = none ∧ (1 : Nat) ≠ 5
    ∧ hope_for_success C4A 'x' 1 = none
    ∧ walkQuery C4root (.Fuzzy 1 .TypoCorrection) 5 ['x'] 1 C4A [] =
        walkQuery C4root (.Fuzzy 1 .TypoCorrection) 5 [] 2
          (match hope_for_success C4root 'x' 1 with
            | some alt_word => alt_word
            | none => C4A)
          (extendRestrict C4A []) :=
  ⟨rfl, by decide, rfl,
    C4_amended_typo_fallback C4root C4A 'x' [] 1 5 1 [] rfl (by decide) rfl⟩

/-- C5: with `Fuzzy(budget, TypoCorrection)`, an empty deduplicated filtered
single-pass result causes the whole search to be redone exactly once as
`Fuzzy(budget, WordBoundary)` on the same query and budget, and that result
is returned; a WordBoundary search always returns its own single pass (it
never retries); and for every kind a non-panicking call returns `some`
collection — an absent match is the empty collection, never an error. -/
theorem C5_fallback_once (root : WordListNode T) (q : String) (f : Nat)
    (hq : q.length ≠ 0) :
    (findTermsOnce root q (.Fuzzy f .TypoCorrection) = [] →
      find_terms root q (.Fuzzy f .TypoCorrection) =
        find_terms root q (.Fuzzy f .WordBoundary))
    ∧ find_terms root q (.Fuzzy f .WordBoundary) =
        some (findTermsOnce root q (.Fuzzy f .WordBoundary))
    ∧ (∀ k, ∃ l, find_terms root q k = some l) := by
  have hwb : find_terms root q (.Fuzzy f .WordBoundary) =
      some (findTermsOnce root q (.Fuzzy f .WordBoundary)) :=
    find_terms_eq_once_not_typo root q _ hq
      (fun f' h => by injection h with h1 h2; exact FuzzPriority.noConfusion h2)
  refine ⟨?_, hwb, ?_⟩
  · intro h0
    rw [find_terms_typo root q f hq, h0]
    simp only [List.length_nil]
    rw [if_pos trivial, hwb]
  · intro k
    by_cases hty : ∃ f', k = .Fuzzy f' .TypoCorrection
    · obtain ⟨f', rfl⟩ := hty
      rw [find_terms_typo root q f' hq]
      exact ⟨_, rfl⟩
    · rw [find_terms_eq_once_not_typo root q k hq (fun f' hf => hty ⟨f', hf⟩)]
      exact ⟨_, rfl⟩

/-- C5 witness: on the empty dictionary the TypoCorrection pass for `"ab"`
is empty and the fallback makes the result equal the WordBoundary search. -/
theorem C5_witness :
    ("ab" : String).length ≠ 0
    ∧ findTermsOnce (WordListNode.new : WordListNode String) "ab"
        (.Fuzzy 0 .TypoCorrection) = []
    ∧ find_terms (WordListNode.new : WordListNode String) "ab"
        (.Fuzzy 0 .TypoCorrection) =
      find_terms WordListNode.new "ab" (.Fuzzy 0 .WordBoundary) :=
  ⟨by decide, rfl,
    (C5_fallback_once WordListNode.new "ab" 0 (by decide)).1 rfl⟩

/-- C7: for the same dictionary and query, every term found by a
`Prefix d1` search is also found by a `Prefix d2` search whenever
`d1 ≤ d2`. -/
theorem C7_prefix_monotone (root : WordListNode T) (q : String) (d1 d2 : Nat)
    (h12 : d1 ≤ d2) (x : T) (l1 l2 : List T)
    (h1 : find_terms root q (.Prefix d1) = some l1)
    (h2 : find_terms root q (.Prefix d2) = some l2)
    (hx : x ∈ l1) : x ∈ l2 := by
  by_cases hq : q.length = 0
  · unfold find_terms at h1
    rw [if_pos hq] at h1
    exact absurd h1 (by simp)
  · rw [find_terms_eq_once_not_typo root q _ hq (fun f h => SearchKind.noConfusion h)] at h1 h2
    rw [← Option.some_inj.mp h1] at hx
    cases hw : walkQuery root (.Prefix d1) (q.length - 1) (normChars q.data) 0 root [] with
    | none =>
      rw [findTermsOnce_of_walk_none root q _ hw] at hx
      exact absurd hx (List.not_mem_nil x)
    | some pr =>
      obtain ⟨m, r⟩ := pr
      have hr : r = [] := walkQuery_prefix_restrict _ root d1 _ _ root m [] r hw
      subst hr
      rw [findTermsOnce_of_walk_nil_restrict root q _ m hw, mem_uniqueList] at hx
      have hx2 : x ∈ collect_terms m (some d2) := mem_collect_terms_mono m d1 d2 h12 x hx
      have hw2 : walkQuery root (.Prefix d2) (q.length - 1) (normChars q.data) 0 root [] =
          some (m, []) := by
        rw [walkQuery_prefix_depth_eq _ root d2 d1 _ _ root []]
        exact hw
      rw [← Option.some_inj.mp h2, findTermsOnce_of_walk_nil_restrict root q _ m hw2,
        mem_uniqueList]
      exact hx2

/-- C7 witness: on the dictionary {"hell", "hello"} the `Prefix 2` result for
`"he"` is contained in the `Prefix 3` result. -/
theorem C7_witness :
    (2 : Nat) ≤ 3
    ∧ find_terms (buildDict ["hell", "hello"]) "he" (.Prefix 2) = some ["hell"]
    ∧ find_terms (buildDict ["hell", "hello"]) "he" (.Prefix 3) = some ["hell", "hello"]
    ∧ "hell" ∈ (["hell", "hello"] : List String) :=
  ⟨by decide, rfl, rfl,
    C7_prefix_monotone (buildDict ["hell", "hello"]) "he" 2 3 (by decide) "hell"
      ["hell"] ["hell", "hello"] rfl rfl (by decide)⟩

/-- C8: learning the same term twice produces a dictionary whose `find_terms`
results are identical to those after learning it once, and no non-panicking
`find_terms` result contains two entries for the same term value. -/
theorem C8_idempotent_and_nodup (n : WordListNode T) (s : String) (t : T)
    (q : String) (k : SearchKind) :
    find_terms (learn_term (learn_term n s t) s t) q k = find_terms (learn_term n s t) q k
    ∧ (∀ l, find_terms n q k = some l → l.Nodup) := by
  refine ⟨?_, ?_⟩
  · rw [learn_term_idem]
  · intro l hl
    exact find_terms_nodup n q k l hl

/-- C8 witness: learning `"hello"` twice leaves the strict search result
unchanged, and the concrete result collection `["hello"]` has no
duplicates. -/
theorem C8_witness :
    find_terms (learn_term (learn_term (WordListNode.new : WordListNode String)
        "hello" "hello") "hello" "hello") "hello" .Strict =
      find_terms (learn_term WordListNode.new "hello" "hello") "hello" .Strict
    ∧ (["hello"] : List String).Nodup :=
  ⟨(C8_idempotent_and_nodup WordListNode.new "hello" "hello" "hello" .Strict).1,
    (C8_idempotent_and_nodup (learn_term (WordListNode.new : WordListNode String)
      "hello" "hello") "hello" "hello" "hello" .Strict).2 ["hello"] rfl⟩

/-- C1: counterexample — the term `"!"` has an empty normalization, so
`find_terms(normalize("!"), Strict)` hits the `query.len() - 1` underflow
and has no result at all (in particular no collection containing `"!"`). -/
theorem C1_counterexample :
    find_terms (buildDict ["!"]) (normalizeStr "!") .Strict = none := rfl

/-- C1 (amended): for every term `t` learned into a dictionary whose
normalization is non-empty, a Strict search for the normalization of `t`
returns a collection containing `t`. -/
theorem C1_strict_roundtrip (ts : List String) (t : String)
    (ht : t ∈ ts) (hne : normalizeStr t ≠ "") :
    memResult t (find_terms (buildDict ts) (normalizeStr t) .Strict) := by
  have hpath := hasTermAt_buildDict ts t ht
  unfold hasTermAt termsAt at hpath
  cases hnode : nodeAtPath (buildDict ts) (normChars t.data) with
  | none =>
    rw [hnode] at hpath
    exact absurd hpath (List.not_mem_nil t)
  | some m =>
    rw [hnode] at hpath
    have hq : (normalizeStr t).length ≠ 0 := by
      rw [string_length_eq_data_length, normalizeStr_data]
      intro h0
      exact normalizeStr_ne_empty t hne (List.eq_nil_of_length_eq_zero h0)
    have hwalk : walkQuery (buildDict ts) .Strict ((normalizeStr t).length - 1)
        (normChars (normalizeStr t).data) 0 (buildDict ts) [] = some (m, []) := by
      rw [normalizeStr_data, normChars_idem]
      exact walkQuery_full_path (normChars t.data) (buildDict ts) m .Strict _ [] hnode
    rw [find_terms_eq_once_not_typo _ _ _ hq (fun f h => SearchKind.noConfusion h),
      findTermsOnce_of_walk_nil_restrict (buildDict ts) (normalizeStr t) .Strict m hwalk]
    refine ⟨_, rfl, ?_⟩
    show t ∈ uniqueList (collect_terms m (some 0))
    rw [collect_terms_zero, mem_uniqueList]
    exact hpath

/-- C1 witness: after learning `"hello"`, the strict search for its
normalization finds it. -/
theorem C1_witness :
    "hello" ∈ (["hello"] : List String)
    ∧ normalizeStr "hello" ≠ ""
    ∧ memResult "hello" (find_terms (buildDict ["hello"]) (normalizeStr "hello") .Strict) :=
  ⟨by decide, by decide,
    C1_strict_roundtrip ["hello"] "hello" (by decide) (by decide)⟩

/-- C6: for Strict and Prefix searches, a missing child edge at a normalized
query position strictly before the last character makes `find_terms` return
the empty collection immediately. -/
theorem C6_midword_mismatch_fails (root : WordListNode T) (q : String)
    (p1 p2 : List Char) (c : Char) (m : WordListNode T)
    (hsplit : normChars q.data = p1 ++ c :: p2)
    (hnode : nodeAtPath root p1 = some m)
    (hmiss : m.children.find? c = none)
    (hbefore : p2 ≠ []) :
    find_terms root q .Strict = some []
    ∧ ∀ d, find_terms root q (.Prefix d) = some [] := by
  have e1 : (normChars q.data).length = p1.length + 1 + p2.length := by
    rw [hsplit, List.length_append, List.length_cons]
    omega
  have e2 := normChars_length_le q.data
  have e3 : 0 < p2.length := List.length_pos.mpr hbefore
  have hq : q.length ≠ 0 := by
    rw [string_length_eq_data_length]
    omega
  have hi : p1.length ≠ q.length - 1 := by
    rw [string_length_eq_data_length]
    omega
  constructor
  · have hwalk : walkQuery root .Strict (q.length - 1) (normChars q.data) 0 root [] = none := by
      rw [hsplit, walkQuery_append_of_nodeAtPath p1 root _ _ _ 0 root m [] hnode, Nat.zero_add]
      exact walkQuery_cons_miss_strict root _ p1.length m [] c p2 hmiss hi
    rw [find_terms_eq_once_not_typo root q _ hq (fun f h => SearchKind.noConfusion h),
      findTermsOnce_of_walk_none root q _ hwalk]
  · intro d
    have hwalk : walkQuery root (.Prefix d) (q.length - 1) (normChars q.data) 0 root [] =
        none := by
      rw [hsplit, walkQuery_append_of_nodeAtPath p1 root _ _ _ 0 root m [] hnode, Nat.zero_add]
      exact walkQuery_cons_miss_prefixKind root d _ p1.length m [] c p2 hmiss hi
    rw [find_terms_eq_once_not_typo root q _ hq (fun f h => SearchKind.noConfusion h),
      findTermsOnce_of_walk_none root q _ hwalk]

/-- C6 witness: on the dictionary {"hello"} the query `"xyz"` mismatches at
its first character (two characters before the end), and both Strict and
Prefix searches return the empty collection. -/
theorem C6_witness :
    normChars ("xyz" : String).data = [] ++ 'x' :: ['y', 'z']
    ∧ (buildDict ["hello"]).children.find? 'x' = none
    ∧ find_terms (buildDict ["hello"]) "xyz" .Strict = some []
    ∧ find_terms (buildDict ["hello"]) "xyz" (.Prefix 7) = some [] := by
  have h := C6_midword_mismatch_fails (buildDict ["hello"]) "xyz" [] ['y', 'z'] 'x'
    (buildDict ["hello"]) rfl rfl rfl (by decide)
  exact ⟨rfl, rfl, h.1, h.2 7⟩

/-- C9: for an all-alphanumeric (ASCII) query whose one and only mismatch is
at the final character, Strict and Prefix searches do not fail: they collect
(at depth 0 resp. `d`) from the node reached by the preceding characters. -/
theorem C9_final_char_mismatch (root : WordListNode T) (q : String)
    (p : List Char) (c : Char) (m : WordListNode T)
    (halnum : ∀ ch ∈ q.data, ch.isAlphanum = true)
    (hsplit : normChars q.data = p ++ [c])
    (hnode : nodeAtPath root p = some m)
    (hmiss : m.children.find? c = none) :
    find_terms root q .Strict = some (uniqueList m.terms)
    ∧ ∀ d, find_terms root q (.Prefix d) = some (uniqueList (collect_terms m (some d))) := by
  have hlen : (normChars q.data).length = q.data.length := by
    rw [normChars_of_all_alnum q.data halnum, List.length_map]
  have e1 : (normChars q.data).length = p.length + 1 := by
    rw [hsplit, List.length_append, List.length_cons]
    simp
  have hq : q.length ≠ 0 := by
    rw [string_length_eq_data_length]
    omega
  have hi : p.length = q.length - 1 := by
    rw [string_length_eq_data_length]
    omega
  have hwalk : ∀ kind, walkQuery root kind (q.length - 1) (normChars q.data) 0 root [] =
      some (m, []) := by
    intro kind
    rw [hsplit, walkQuery_append_of_nodeAtPath p root kind _ [c] 0 root m [] hnode,
      Nat.zero_add, walkQuery_cons_miss_last root kind _ p.length m [] c [] hmiss hi,
      walkQuery_nil]
  constructor
  · rw [find_terms_eq_once_not_typo root q _ hq (fun f h => SearchKind.noConfusion h),
      findTermsOnce_of_walk_nil_restrict root q .Strict m (hwalk .Strict)]
    show some (uniqueList (collect_terms m (some 0))) = _
    rw [collect_terms_zero]
  · intro d
    rw [find_terms_eq_once_not_typo root q _ hq (fun f h => SearchKind.noConfusion h),
      findTermsOnce_of_walk_nil_restrict root q (.Prefix d) m (hwalk (.Prefix d))]
    rfl

/-- C9 witness: after learning "hell" and "hello", the query "hellx"
mismatches only at its final 'x' and the strict search returns {"hell"}. -/
theorem C9_witness :
    (∀ ch ∈ ("hellx" : String).data, ch.isAlphanum = true)
    ∧ nodeAtPath (buildDict ["hell", "hello"]) ['h', 'e', 'l', 'l'] =
        some (WordListNode.mk ["hell"] (.cons 'o' (.mk ["hello"] .nil) .nil))
    ∧ find_terms (buildDict ["hell", "hello"]) "hellx" .Strict = some ["hell"] := by
  have h := C9_final_char_mismatch (buildDict ["hell", "hello"]) "hellx"
    ['h', 'e', 'l', 'l'] 'x' (WordListNode.mk ["hell"] (.cons 'o' (.mk ["hello"] .nil) .nil))
    (by decide) rfl rfl rfl
  refine ⟨by decide, rfl, ?_⟩
  rw [h.1]
  rfl

/-- C10: a non-empty query of only non-alphanumeric characters does not
panic and collects from the root: with `Prefix d` exactly the terms stored
within depth `d` of the root are found, and with any `Fuzzy` search exactly
the terms of the whole dictionary are found. -/
theorem C10_nonalnum_query_collects_root (root : WordListNode T) (q : String)
    (hne : q.data ≠ [])
    (hnon : ∀ ch ∈ q.data, ch.isAlphanum = false) :
    (∀ d x, memResult x (find_terms root q (.Prefix d)) ↔ TermWithin x root d)
    ∧ (∀ f pri x, memResult x (find_terms root q (.Fuzzy f pri)) ↔
        ∃ d, TermWithin x root d) := by
  have hq : q.length ≠ 0 := by
    rw [string_length_eq_data_length]
    exact fun h0 => hne (List.eq_nil_of_length_eq_zero h0)
  have hnorm : normChars q.data = [] := normChars_of_all_non_alnum q.data hnon
  have hwalk : ∀ kind, walkQuery root kind (q.length - 1) (normChars q.data) 0 root [] =
      some (root, []) := by
    intro kind
    rw [hnorm, walkQuery_nil]
  constructor
  · intro d x
    rw [find_terms_eq_once_not_typo root q _ hq (fun f h => SearchKind.noConfusion h),
      findTermsOnce_of_walk_nil_restrict root q (.Prefix d) root (hwalk _)]
    constructor
    · rintro ⟨l, hl, hx⟩
      rw [← Option.some_inj.mp hl, mem_uniqueList] at hx
      exact (mem_collect_terms_some root d x).mp hx
    · intro h
      exact ⟨_, rfl, by rw [mem_uniqueList]; exact (mem_collect_terms_some root d x).mpr h⟩
  · intro f pri x
    have key : find_terms root q (.Fuzzy f pri) =
        some (uniqueList (collect_terms root none)) := by
      cases pri with
      | WordBoundary =>
        rw [find_terms_eq_once_not_typo root q _ hq
            (fun f' h => by injection h with h1 h2; exact FuzzPriority.noConfusion h2),
          findTermsOnce_of_walk_nil_restrict root q _ root (hwalk _)]
        rfl
      | TypoCorrection =>
        rw [find_terms_typo root q f hq,
          findTermsOnce_of_walk_nil_restrict root q (.Fuzzy f .TypoCorrection) root (hwalk _),
          findTermsOnce_of_walk_nil_restrict root q (.Fuzzy f .WordBoundary) root (hwalk _)]
        simp only [depthLimit]
        rw [ite_self]
    rw [key]
    constructor
    · rintro ⟨l, hl, hx⟩
      rw [← Option.some_inj.mp hl, mem_uniqueList] at hx
      exact (mem_collect_terms_none root x).mp hx
    · intro h
      exact ⟨_, rfl, by rw [mem_uniqueList]; exact (mem_collect_terms_none root x).mpr h⟩

/-- C10 witness: the query `"!"` on the dictionary {"ab"} — the fuzzy result
membership coincides with membership in the whole dictionary. -/
theorem C10_witness :
    ("!" : String).data ≠ []
    ∧ (∀ ch ∈ ("!" : String).data, ch.isAlphanum = false)
    ∧ (memResult "ab" (find_terms (buildDict ["ab"]) "!" (.Fuzzy 0 .WordBoundary)) ↔
        ∃ d, TermWithin "ab" (buildDict ["ab"]) d) :=
  ⟨by decide, by decide,
    (C10_nonalnum_query_collects_root (buildDict ["ab"]) "!" (by decide) (by decide)).2
      0 .WordBoundary "ab"⟩

end QuikSearch
